import Mathlib

/-!
Verification of the FactorLab backtesting core (`src/factorlabs/backtest`)
against its natural-language specification.

Shallow embedding conventions:
- Python `float` amounts (cash, shares, prices) are modelled as `ℚ`.
- `datetime.date` is modelled by its proleptic-Gregorian day ordinal
  (`date.toordinal()`); `.month` and `.year` are computed from the ordinal
  with the standard civil-calendar conversion; `(d1 - d2).days` is the
  ordinal difference.
- Python `dict[str, X]` is modelled as an association list in insertion
  order with unique keys; `dict[k] = v`, `del dict[k]`, `k in dict` and
  `dict.get(k, d)` become `aset`, `aerase`, `alookup`.
- A Python method that can raise becomes a function into `Except`; the
  error constructors name the raised conditions.
-/

/-- Model of `datetime.date`: the proleptic Gregorian day ordinal, as
returned by `date.toordinal()` (ordinal 1 is 0001-01-01). -/
structure Date where
  ordinal : Nat
deriving DecidableEq, Repr

/-- Civil-calendar conversion from day ordinal to (year, month, day),
matching Python `date.fromordinal`.  Standard era-based algorithm; the
shift 305 aligns Python ordinals (1 = 0001-01-01) with era day counts. -/
def Date.civil (d : Date) : Nat × Nat × Nat :=
  let z := d.ordinal + 305
  let era := z / 146097
  let doe := z % 146097
  let yoe := (doe - doe / 1460 + doe / 36524 - doe / 146096) / 365
  let y := yoe + era * 400
  let doy := doe - (365 * yoe + yoe / 4 - yoe / 100)
  let mp := (5 * doy + 2) / 153
  let day := doy - (153 * mp + 2) / 5 + 1
  let m := if mp < 10 then mp + 3 else mp - 9
  (if m ≤ 2 then y + 1 else y, m, day)

/-- Python `date.year`. -/
def Date.year (d : Date) : Nat := d.civil.1

/-- Python `date.month`. -/
def Date.month (d : Date) : Nat := d.civil.2.1

/-- Python `(d1 - d2).days`. -/
def Date.sub (d1 d2 : Date) : Int := (d1.ordinal : Int) - (d2.ordinal : Int)

section AssocList

variable {α : Type}

/-- Python `dict.get(k)` / `dict[k]` on an insertion-ordered dict with
unique keys (first match). -/
def alookup : List (String × α) → String → Option α
  | [], _ => none
  | (k, v) :: rest, t => if k = t then some v else alookup rest t

/-- Python `dict[k] = v`: update in place if the key is present, else
append at the end (insertion order). -/
def aset : List (String × α) → String → α → List (String × α)
  | [], t, v => [(t, v)]
  | (k, w) :: rest, t, v =>
      if k = t then (k, v) :: rest else (k, w) :: aset rest t v

/-- Python `del dict[k]` (removes the first binding of the key; on a
unique-key dict this is the only one). -/
def aerase : List (String × α) → String → List (String × α)
  | [], _ => []
  | (k, w) :: rest, t => if k = t then rest else (k, w) :: aerase rest t

end AssocList

deriving instance DecidableEq for Except

/-- `Position` from `portfolio.py`: a holding in a single security. -/
structure Position where
  ticker : String
  shares : ℚ
  entry_price : ℚ
  entry_date : Date
deriving DecidableEq, Repr

/-- The ledger state of `Portfolio` from `portfolio.py`: cash plus the
ticker-keyed positions dict. -/
structure Portfolio where
  cash : ℚ
  positions : List (String × Position)
deriving DecidableEq, Repr

/-- The exceptions the ledger methods raise.  `buy`/`sell` raise
`ValueError` with distinct messages; the spec names them `InsufficientCash`
(buy cost exceeds cash), `InvalidOrder` ("Shares must be positive"),
`NoPosition`, `InsufficientShares`.  `zeroDivision` models the Python
`ZeroDivisionError` raised by the average-cost division in `buy` when the
updated total share count is zero. -/
inductive PortfolioError where
  | insufficientCash
  | invalidOrder
  | noPosition
  | insufficientShares
  | zeroDivision
deriving DecidableEq, Repr

/-- `Portfolio.get_total_value(prices=None)`: with `prices is None` return
just the cash; otherwise cash plus `sum(pos.shares * prices.get(pos.ticker, 0.0))`
over the positions. -/
def Portfolio.get_total_value (pf : Portfolio) (prices : Option (List (String × ℚ))) : ℚ :=
  match prices with
  | none => pf.cash
  | some ps =>
      pf.cash + (pf.positions.map (fun tp => tp.2.shares * ((alookup ps tp.2.ticker).getD 0))).sum

/-- Modelled from the spec: `Portfolio.get_holdings_value` is referenced by
`Backtester.run` and by `tests/test_portfolio_enhancements.py` but its
definition is not in the source tree.  Per spec section 4.1 it returns the
per-ticker market value map under the same missing-price policy as
`total_value` (a held ticker absent from `prices` contributes 0). -/
def Portfolio.get_holdings_value (pf : Portfolio) (prices : List (String × ℚ)) :
    List (String × ℚ) :=
  pf.positions.map (fun tp => (tp.1, tp.2.shares * ((alookup prices tp.2.ticker).getD 0)))

/-- `Portfolio.buy(ticker, shares, price, date)` from `portfolio.py`.
The method checks only `cost > cash` (raising `ValueError`, modelled as
`insufficientCash`); it performs no check on `shares`.  On success it
deducts the cost and then either updates the existing position with the
weighted-average entry price (keeping the original entry date) or creates
a new position dated `date`.  When an existing position is updated and
`existing.shares + shares` is zero, the Python division raises
`ZeroDivisionError` (after the cash deduction); the embedding returns
`zeroDivision` there. -/
def Portfolio.buy (pf : Portfolio) (ticker : String) (shares price : ℚ) (d : Date) :
    Except PortfolioError Portfolio :=
  let cost := shares * price
  if cost > pf.cash then
    .error .insufficientCash
  else
    match alookup pf.positions ticker with
    | some existing =>
        let total_shares := existing.shares + shares
        if total_shares = 0 then
          .error .zeroDivision
        else
          let avg_price :=
            (existing.shares * existing.entry_price + shares * price) / total_shares
          .ok { cash := pf.cash - cost,
                positions := aset pf.positions ticker
                  { ticker := ticker, shares := total_shares,
                    entry_price := avg_price, entry_date := existing.entry_date } }
    | none =>
        .ok { cash := pf.cash - cost,
              positions := aset pf.positions ticker
                { ticker := ticker, shares := shares,
                  entry_price := price, entry_date := d } }

/-- `Portfolio.sell(ticker, shares, price, date)` from `portfolio.py`:
rejects `shares <= 0` ("Shares must be positive", modelled as
`invalidOrder`), then a missing position (`noPosition`), then
`shares > held` (`insufficientShares`); on success adds the proceeds to
cash and either deletes the position (full sell) or reduces its share
count in place (the `date` argument is unused). -/
def Portfolio.sell (pf : Portfolio) (ticker : String) (shares price : ℚ) (_d : Date) :
    Except PortfolioError Portfolio :=
  if shares ≤ 0 then
    .error .invalidOrder
  else
    match alookup pf.positions ticker with
    | none => .error .noPosition
    | some pos =>
        if shares > pos.shares then
          .error .insufficientShares
        else
          let cash' := pf.cash + shares * price
          if shares = pos.shares then
            .ok { cash := cash', positions := aerase pf.positions ticker }
          else
            .ok { cash := cash',
                  positions := aset pf.positions ticker
                    { pos with shares := pos.shares - shares } }

/-- `Trade` as produced by the trade planner and consumed by
`Backtester.run`: the run loop reads `.side` (the strings "buy" / "sell"),
`.ticker`, `.shares`, `.price`, `.date`. -/
structure Trade where
  date : Date
  ticker : String
  shares : ℚ
  price : ℚ
  side : String
deriving DecidableEq, Repr

/-- Error surface of the trade planner, per spec section 7:
`InvalidState` (non-positive total value) and `MissingPrice` (a needed
ticker has no price on the rebalance date). -/
inductive RebalanceError where
  | invalidState
  | missingPrice
deriving DecidableEq, Repr

/-- The spec's example absolute tolerance for a zero share delta, 1e-9. -/
def deltaEps : ℚ := 1 / 1000000000

/-- Modelled from the spec: the per-ticker step (2)-(4) of
`Rebalancer.calculate_trades` (src/factorlabs/backtest/rebalancer.py is
absent from the source tree; only its tests and the `Backtester.run`
caller are present).  For one ticker: `target_value = weight × total`,
`target_shares = target_value / price`, `delta = target_shares − current`;
a non-zero target with no price fails with `MissingPrice`; a delta within
`deltaEps` of zero emits no trade; otherwise a Buy (delta > 0) or a Sell
(delta < 0, for `|delta|` shares) at the ticker's price.  The spec leaves
the zero-target missing-price case undefined; the model emits no trade
there. -/
def planTicker (pf : Portfolio) (target_weights prices : List (String × ℚ))
    (total : ℚ) (trade_date : Date) (t : String) :
    Except RebalanceError (Option Trade) :=
  let w := (alookup target_weights t).getD 0
  let current_shares :=
    match alookup pf.positions t with
    | some pos => pos.shares
    | none => 0
  match alookup prices t with
  | none => if w = 0 then .ok none else .error .missingPrice
  | some p =>
      let target_shares := w * total / p
      let delta := target_shares - current_shares
      if delta ≤ deltaEps ∧ -deltaEps ≤ delta then .ok none
      else if delta > 0 then
        .ok (some { date := trade_date, ticker := t, shares := delta, price := p,
                    side := "buy" })
      else
        .ok (some { date := trade_date, ticker := t, shares := -delta, price := p,
                    side := "sell" })

/-- Modelled from the spec: the ticker universe of step (2) of
`calculate_trades` — every ticker that is a key of `target_weights` or is
currently held, each once, deterministically (target keys in order, then
held-only tickers in order). -/
def tradeUniverse (target_weights : List (String × ℚ))
    (positions : List (String × Position)) : List String :=
  target_weights.map Prod.fst ++
    (positions.map Prod.fst).filter
      (fun t => (alookup target_weights t).isNone)

/-- Modelled from the spec: run `planTicker` over a list of tickers,
collecting the emitted trades in order and propagating the first error. -/
def planTickers (pf : Portfolio) (target_weights prices : List (String × ℚ))
    (total : ℚ) (trade_date : Date) :
    List String → Except RebalanceError (List Trade)
  | [] => .ok []
  | t :: rest =>
      match planTicker pf target_weights prices total trade_date t with
      | .error e => .error e
      | .ok none => planTickers pf target_weights prices total trade_date rest
      | .ok (some tr) =>
          match planTickers pf target_weights prices total trade_date rest with
          | .error e => .error e
          | .ok trs => .ok (tr :: trs)

/-- Modelled from the spec: `Rebalancer.calculate_trades(current_portfolio,
target_weights, prices, trade_date)` (rebalancer.py is absent from the
source tree).  Step (1): `total = total_value(prices)`, failing with
`InvalidState` when `total ≤ 0`; steps (2)-(4) per ticker via `planTicker`;
step (5): the returned sequence is all Sell trades followed by all Buy
trades. -/
def calculate_trades (pf : Portfolio) (target_weights prices : List (String × ℚ))
    (trade_date : Date) : Except RebalanceError (List Trade) :=
  let total := pf.get_total_value (some prices)
  if total ≤ 0 then .error .invalidState
  else
    match planTickers pf target_weights prices total trade_date
        (tradeUniverse target_weights pf.positions) with
    | .error e => .error e
    | .ok trades =>
        .ok (trades.filter (fun tr => tr.side = "sell") ++
             trades.filter (fun tr => tr.side = "buy"))

/-- `BacktestConfig` from `backtester.py`. -/
structure BacktestConfig where
  start_date : Date
  end_date : Date
  initial_cash : ℚ
  rebalance_frequency : String
  transaction_cost : ℚ
deriving DecidableEq, Repr

/-- One row of the equity-curve table built by `Backtester.run`. -/
structure EquityRecord where
  date : Date
  portfolio_value : ℚ
  cash : ℚ
  positions_value : ℚ
deriving DecidableEq, Repr

/-- One row of the trades table built by `Backtester.run`. -/
structure TradeRecord where
  date : Date
  ticker : String
  shares : ℚ
  price : ℚ
  side : String
deriving DecidableEq, Repr

/-- `BacktestResult` from `backtester.py` (the two DataFrames the run
builds; the optional `positions_history`/`metrics` fields are never set by
`run` and are omitted). -/
structure BacktestResult where
  equity_curve : List EquityRecord
  trades : List TradeRecord
deriving DecidableEq, Repr

/-- `Backtester._should_rebalance(current_date, last_rebalance_date,
frequency)`.  The result is `none` when the Python code raises: in the
"weekly" branch `(current_date - last_rebalance_date).days` is evaluated
unconditionally, so `last_rebalance_date = None` raises `TypeError`.
Every other path returns a boolean; unrecognized frequency strings fall
through to `False`. -/
def should_rebalance (current_date : Date) (last_rebalance_date : Option Date)
    (frequency : String) : Option Bool :=
  if frequency = "never" then
    match last_rebalance_date with
    | none => some true
    | some _ => some false
  else if frequency = "daily" then
    some true
  else if frequency = "weekly" then
    match last_rebalance_date with
    | none => none
    | some last => some (decide (Date.sub current_date last ≥ 7))
  else if frequency = "monthly" then
    match last_rebalance_date with
    | none => some true
    | some last =>
        some (decide (last.month ≠ current_date.month ∨ last.year ≠ current_date.year))
  else
    some false

/-- Errors that abort `Backtester.run`: a ledger exception from applying a
trade, a trade-planner error, or the `TypeError` from the weekly branch of
`_should_rebalance`. -/
inductive RunError where
  | portfolioError (e : PortfolioError)
  | rebalanceError (e : RebalanceError)
  | typeError
deriving DecidableEq, Repr

/-- The day's price map in `Backtester.run`: the `{ticker: close}` dict
built from the rows of the price table whose date equals the current
date. -/
def pricesFor (rows : List (Date × String × ℚ)) (d : Date) : List (String × ℚ) :=
  (rows.filter (fun r => r.1 = d)).map (fun r => (r.2.1, r.2.2))

/-- The trade-execution loop inside `Backtester.run`: apply each trade in
order (`side == "sell"` sells, `side == "buy"` buys, any other side is not
executed), appending a trade record after each; the first ledger exception
aborts. -/
def execTrades : Portfolio → List Trade → Except PortfolioError (Portfolio × List TradeRecord)
  | pf, [] => .ok (pf, [])
  | pf, tr :: rest =>
      let step : Except PortfolioError Portfolio :=
        if tr.side = "sell" then pf.sell tr.ticker tr.shares tr.price tr.date
        else if tr.side = "buy" then pf.buy tr.ticker tr.shares tr.price tr.date
        else .ok pf
      match step with
      | .error e => .error e
      | .ok pf' =>
          match execTrades pf' rest with
          | .error e => .error e
          | .ok (pf'', recs) =>
              .ok (pf'', { date := tr.date, ticker := tr.ticker, shares := tr.shares,
                           price := tr.price, side := tr.side } :: recs)

/-- The equity-curve record appended for a date in `Backtester.run`:
`portfolio_value = get_total_value(prices)`, `cash`, and
`positions_value = sum(get_holdings_value(prices).values())`. -/
def mkRecord (pf : Portfolio) (prices_dict : List (String × ℚ)) (d : Date) : EquityRecord :=
  { date := d,
    portfolio_value := pf.get_total_value (some prices_dict),
    cash := pf.cash,
    positions_value := ((pf.get_holdings_value prices_dict).map Prod.snd).sum }

/-- The per-date loop of `Backtester.run`, threading the portfolio and
`last_rebalance_date` and accumulating the equity-curve and trade
records; any raised error aborts the whole run. -/
def runLoop (target_weights : List (String × ℚ)) (frequency : String)
    (rows : List (Date × String × ℚ)) :
    List Date → Portfolio → Option Date →
      Except RunError (List EquityRecord × List TradeRecord)
  | [], _, _ => .ok ([], [])
  | d :: rest, pf, last =>
      let prices_dict := pricesFor rows d
      match should_rebalance d last frequency with
      | none => .error .typeError
      | some false =>
          match runLoop target_weights frequency rows rest pf last with
          | .error e => .error e
          | .ok (eqs, trs) => .ok (mkRecord pf prices_dict d :: eqs, trs)
      | some true =>
          match calculate_trades pf target_weights prices_dict d with
          | .error e => .error (.rebalanceError e)
          | .ok trades =>
              match execTrades pf trades with
              | .error e => .error (.portfolioError e)
              | .ok (pf', recs) =>
                  match runLoop target_weights frequency rows rest pf' (some d) with
                  | .error e => .error e
                  | .ok (eqs, trs) => .ok (mkRecord pf' prices_dict d :: eqs, recs ++ trs)

/-- The simulation calendar of `Backtester.run`:
`pl.date_range(start_date, end_date, "1d")`, the closed range of calendar
dates stepped one day at a time (empty when `end < start`). -/
def dateRange (start_date end_date : Date) : List Date :=
  if end_date.ordinal < start_date.ordinal then []
  else (List.range (end_date.ordinal - start_date.ordinal + 1)).map
    (fun i => ⟨start_date.ordinal + i⟩)

/-- `Backtester.run(prices, target_weights, config)`: fresh `Portfolio`
with `config.initial_cash`, `last_rebalance_date = None`, then the
per-date loop over the calendar range; the result packages the equity
curve and trade log. -/
def Backtester.run (rows : List (Date × String × ℚ))
    (target_weights : List (String × ℚ)) (config : BacktestConfig) :
    Except RunError BacktestResult :=
  match runLoop target_weights config.rebalance_frequency rows
      (dateRange config.start_date config.end_date)
      { cash := config.initial_cash, positions := [] } none with
  | .error e => .error e
  | .ok (eqs, trs) => .ok { equity_curve := eqs, trades := trs }

/-- The ledger invariant of spec section 3: `cash ≥ 0`, no stored position
with `shares ≤ 0`, and each ticker appears at most once in the positions
map. -/
def LedgerInvariant (pf : Portfolio) : Prop :=
  0 ≤ pf.cash ∧ (∀ q ∈ pf.positions, 0 < q.2.shares) ∧
    (pf.positions.map Prod.fst).Nodup

instance (pf : Portfolio) : Decidable (LedgerInvariant pf) := by
  unfold LedgerInvariant; infer_instance

/-- A ledger mutation: one `Portfolio.buy` or `Portfolio.sell` call. -/
inductive Op where
  | buy (ticker : String) (shares price : ℚ) (d : Date)
  | sell (ticker : String) (shares price : ℚ) (d : Date)
deriving DecidableEq, Repr

/-- Apply one operation to the ledger. -/
def applyOp (pf : Portfolio) : Op → Except PortfolioError Portfolio
  | .buy t s p d => pf.buy t s p d
  | .sell t s p d => pf.sell t s p d

/-- Apply a sequence of operations, stopping at the first error (a failed
operation propagates its error and changes nothing). -/
def applyOps : Portfolio → List Op → Except PortfolioError Portfolio
  | pf, [] => .ok pf
  | pf, op :: rest =>
      match applyOp pf op with
      | .error e => .error e
      | .ok pf' => applyOps pf' rest

/-- An operation with positive share count and positive price. -/
def Op.validOrder : Op → Prop
  | .buy _ s p _ => 0 < s ∧ 0 < p
  | .sell _ s p _ => 0 < s ∧ 0 < p

instance (op : Op) : Decidable op.validOrder := by
  cases op <;> { unfold Op.validOrder; infer_instance }

/-- The ledger-state sequence threaded by `Backtester.run`: for each
simulated date, the portfolio state the loop holds when it appends that
date's equity record (the state after that date's rebalancing trades, if
any).  Defined by the same recurrence as `runLoop` — same rebalance
decision, same trade computation and execution, same error propagation —
but returning the states instead of the records, so that theorems can tie
each emitted record to the run's own ledger state on that date. -/
def ledgerStates (target_weights : List (String × ℚ)) (frequency : String)
    (rows : List (Date × String × ℚ)) :
    List Date → Portfolio → Option Date → Except RunError (List Portfolio)
  | [], _, _ => .ok []
  | d :: rest, pf, last =>
      match should_rebalance d last frequency with
      | none => .error .typeError
      | some false =>
          match ledgerStates target_weights frequency rows rest pf last with
          | .error e => .error e
          | .ok pfs => .ok (pf :: pfs)
      | some true =>
          match calculate_trades pf target_weights (pricesFor rows d) d with
          | .error e => .error (.rebalanceError e)
          | .ok trades =>
              match execTrades pf trades with
              | .error e => .error (.portfolioError e)
              | .ok (pf', _) =>
                  match ledgerStates target_weights frequency rows rest pf' (some d) with
                  | .error e => .error e
                  | .ok pfs => .ok (pf' :: pfs)

section AssocLemmas

variable {α : Type}

theorem alookup_aset_self (l : List (String × α)) (t : String) (v : α) :
    alookup (aset l t v) t = some v := by
  induction l with
  | nil => simp [aset, alookup]
  | cons hd tl ih =>
      obtain ⟨k, w⟩ := hd
      by_cases hk : k = t
      · simp [aset, alookup, hk]
      · simp [aset, alookup, hk, ih]

theorem alookup_aset_ne (l : List (String × α)) (t t' : String) (v : α)
    (h : t' ≠ t) : alookup (aset l t v) t' = alookup l t' := by
  induction l with
  | nil =>
      simp only [aset, alookup]
      rw [if_neg (fun hh => h hh.symm)]
  | cons hd tl ih =>
      obtain ⟨k, w⟩ := hd
      by_cases hk : k = t
      · subst hk
        have hnt : ¬ k = t' := fun hh => h hh.symm
        simp only [aset, if_pos rfl, alookup, if_neg hnt]
      · simp only [aset, if_neg hk, alookup]
        by_cases hk' : k = t'
        · simp [hk']
        · simp [hk', ih]

theorem mem_aset_elim (l : List (String × α)) (t : String) (v : α)
    (q : String × α) (h : q ∈ aset l t v) : q = (t, v) ∨ q ∈ l := by
  induction l with
  | nil => simpa [aset] using h
  | cons hd tl ih =>
      obtain ⟨k, w⟩ := hd
      by_cases hk : k = t
      · simp only [aset, if_pos hk, List.mem_cons] at h
        rcases h with h | h
        · left; rw [h, hk]
        · right; simp [h]
      · simp only [aset, if_neg hk, List.mem_cons] at h
        rcases h with h | h
        · right; simp [h]
        · rcases ih h with h' | h'
          · exact Or.inl h'
          · exact Or.inr (List.mem_cons_of_mem _ h')

theorem keys_aset_subset (l : List (String × α)) (t : String) (v : α)
    (x : String) (h : x ∈ (aset l t v).map Prod.fst) :
    x = t ∨ x ∈ l.map Prod.fst := by
  rcases List.mem_map.mp h with ⟨q, hq, hx⟩
  rcases mem_aset_elim l t v q hq with h' | h'
  · left; rw [← hx, h']
  · right; exact List.mem_map.mpr ⟨q, h', hx⟩

theorem nodup_keys_aset (l : List (String × α)) (t : String) (v : α)
    (h : (l.map Prod.fst).Nodup) : ((aset l t v).map Prod.fst).Nodup := by
  induction l with
  | nil => simp [aset]
  | cons hd tl ih =>
      obtain ⟨k, w⟩ := hd
      simp only [List.map_cons, List.nodup_cons] at h
      by_cases hk : k = t
      · simpa [aset, if_pos hk, List.nodup_cons] using h
      · simp only [aset, if_neg hk, List.map_cons, List.nodup_cons]
        refine ⟨fun hc => ?_, ih h.2⟩
        rcases keys_aset_subset tl t v k hc with h' | h'
        · exact hk h'
        · exact h.1 h'

theorem aerase_sublist (l : List (String × α)) (t : String) :
    (aerase l t).Sublist l := by
  induction l with
  | nil => simp [aerase]
  | cons hd tl ih =>
      obtain ⟨k, w⟩ := hd
      by_cases hk : k = t
      · simp only [aerase, if_pos hk]
        exact List.Sublist.cons (k, w) (List.Sublist.refl tl)
      · simp only [aerase, if_neg hk]
        exact List.Sublist.cons₂ (k, w) ih

theorem mem_aerase (l : List (String × α)) (t : String) (q : String × α)
    (h : q ∈ aerase l t) : q ∈ l :=
  (aerase_sublist l t).mem h

theorem nodup_keys_aerase (l : List (String × α)) (t : String)
    (h : (l.map Prod.fst).Nodup) : ((aerase l t).map Prod.fst).Nodup :=
  ((aerase_sublist l t).map Prod.fst).nodup h

theorem alookup_some_mem (l : List (String × α)) (t : String) (v : α)
    (h : alookup l t = some v) : (t, v) ∈ l := by
  induction l with
  | nil => simp [alookup] at h
  | cons hd tl ih =>
      obtain ⟨k, w⟩ := hd
      by_cases hk : k = t
      · simp only [alookup, if_pos hk] at h
        subst hk
        injection h with h'
        subst h'
        exact List.mem_cons_self _ _
      · simp only [alookup, if_neg hk] at h
        exact List.mem_cons_of_mem _ (ih h)

end AssocLemmas

/-- C10: for every ledger, `get_total_value` with `prices = None` returns
exactly the cash balance, ignoring all held positions (even when positions
exist), without failing or valuing positions. -/
theorem get_total_value_none_eq_cash (pf : Portfolio) :
    pf.get_total_value none = pf.cash := rfl

/-- C5: for every ledger and price map, `get_total_value(prices)` is cash
plus the sum over held positions of shares times the ticker's price, a
held ticker missing from the price map contributing 0 to the sum (and
causing no error: the function is total). -/
theorem get_total_value_some_eq (pf : Portfolio) (prices : List (String × ℚ)) :
    pf.get_total_value (some prices) =
      pf.cash + (pf.positions.map (fun tp =>
        match alookup prices tp.2.ticker with
        | some p => tp.2.shares * p
        | none => 0)).sum := by
  have hmap : ∀ l : List (String × Position),
      (l.map (fun tp => tp.2.shares * ((alookup prices tp.2.ticker).getD 0))).sum =
      (l.map (fun tp =>
        match alookup prices tp.2.ticker with
        | some p => tp.2.shares * p
        | none => 0)).sum := by
    intro l
    induction l with
    | nil => rfl
    | cons hd tl ih =>
        simp only [List.map_cons, List.sum_cons, ih]
        congr 1
        cases halo : alookup prices hd.2.ticker with
        | none => simp [Option.getD]
        | some p => simp [Option.getD]
  show pf.cash +
      (pf.positions.map (fun tp => tp.2.shares * ((alookup prices tp.2.ticker).getD 0))).sum = _
  rw [hmap]

/-- C6: the claim says the Weekly rule returns true on the first date
(when `last_rebalance_date` is unset); in the code the weekly branch
evaluates `(current_date - last_rebalance_date).days` unconditionally, so
the unset case raises `TypeError` (modelled as `none`) instead — every
weekly run crashes on its first simulated date.  With a previous rebalance
date set, the rule does return true exactly when at least 7 calendar days
have elapsed. -/
theorem should_rebalance_weekly_spec :
    (∀ cur : Date, should_rebalance cur none "weekly" = none) ∧
    (∀ cur last : Date,
      should_rebalance cur (some last) "weekly" =
        some (decide (Date.sub cur last ≥ 7))) :=
  ⟨fun _ => rfl, fun _ _ => rfl⟩

/-- C7: the Monthly rule returns true exactly when `last_rebalance_date`
is unset or its (month, year) differs from the current date's; in
particular, with last = 2024-01-15 (ordinal 738900) it returns true for
2024-02-01 (ordinal 738917) and false for 2024-01-20 (ordinal 738905). -/
theorem should_rebalance_monthly_spec :
    (∀ cur : Date, should_rebalance cur none "monthly" = some true) ∧
    (∀ cur last : Date,
      should_rebalance cur (some last) "monthly" =
        some (decide (last.month ≠ cur.month ∨ last.year ≠ cur.year))) ∧
    should_rebalance ⟨738917⟩ (some ⟨738900⟩) "monthly" = some true ∧
    should_rebalance ⟨738905⟩ (some ⟨738900⟩) "monthly" = some false := by
  refine ⟨fun _ => rfl, fun _ _ => rfl, by decide, by decide⟩

/-- C4 counterexample: with $100 cash and no positions, the claim says
`buy("A", 0, 10, d)` fails with `InvalidOrder`; in the code `buy` performs
no share-count validation, so the call succeeds (cost 0 passes the cash
check) and stores a zero-share position. -/
theorem buy_zero_shares_succeeds :
    (Portfolio.mk 100 []).buy "A" 0 10 ⟨1⟩ =
      .ok (Portfolio.mk 100 [("A", Position.mk "A" 0 10 ⟨1⟩)]) ∧
    (Portfolio.mk 100 []).buy "A" 0 10 ⟨1⟩ ≠
      .error PortfolioError.invalidOrder := by
  have h1 : (Portfolio.mk 100 []).buy "A" 0 10 ⟨1⟩ =
      .ok (Portfolio.mk 100 [("A", Position.mk "A" 0 10 ⟨1⟩)]) := by
    norm_num [Portfolio.buy, alookup, aset]
  refine ⟨h1, ?_⟩
  rw [h1]
  exact fun hc => Except.noConfusion hc

/-- C4 amended: `buy` performs no share-count validation and never fails
with `InvalidOrder` (its only errors are insufficient cash and the
zero-total-shares division error), while `sell` with `shares ≤ 0` does
fail with `InvalidOrder`. -/
theorem buy_unchecked_sell_invalid_order (pf : Portfolio) (t : String)
    (shares price : ℚ) (d : Date) :
    (∀ e, pf.buy t shares price d = .error e → e ≠ .invalidOrder) ∧
    (shares ≤ 0 → pf.sell t shares price d = .error .invalidOrder) := by
  constructor
  · intro e he
    simp only [Portfolio.buy] at he
    split at he
    · injection he with h'
      rw [← h']
      decide
    · split at he
      · split at he
        · injection he with h'
          rw [← h']
          decide
        · exact absurd he (by simp)
      · exact absurd he (by simp)
  · intro hs
    unfold Portfolio.sell
    rw [if_pos hs]

/-- Witness for the C4 amended theorem at a concrete input: selling a
non-positive share count fails with `InvalidOrder`. -/
theorem buy_unchecked_sell_invalid_order_witness :
    (Portfolio.mk 50 []).sell "A" (-1) 5 ⟨1⟩ =
      .error PortfolioError.invalidOrder :=
  (buy_unchecked_sell_invalid_order (Portfolio.mk 50 []) "A" (-1) 5 ⟨1⟩).2 (by decide)

/-- C1: on a ledger not yet holding the ticker, buying `s1` shares at `p1`
and then `s2` at `p2` (both buys succeeding) leaves a position with
`s1 + s2` shares, average cost `(s1*p1 + s2*p2)/(s1 + s2)`, and the entry
date of the original (first) buy; a subsequent successful partial sell
reduces the shares by the sold amount and leaves the average cost and
entry date unchanged. -/
theorem buy_buy_avg_cost_sell_preserves (pf : Portfolio) (t : String)
    (s1 p1 s2 p2 : ℚ) (d1 d2 : Date) (pf1 pf2 : Portfolio)
    (h0 : alookup pf.positions t = none)
    (h1 : pf.buy t s1 p1 d1 = .ok pf1)
    (h2 : pf1.buy t s2 p2 d2 = .ok pf2) :
    alookup pf2.positions t =
      some (Position.mk t (s1 + s2) ((s1 * p1 + s2 * p2) / (s1 + s2)) d1) ∧
    ∀ (s p3 : ℚ) (d3 : Date) (pf3 : Portfolio),
      pf2.sell t s p3 d3 = .ok pf3 → s ≠ s1 + s2 →
      alookup pf3.positions t =
        some (Position.mk t (s1 + s2 - s) ((s1 * p1 + s2 * p2) / (s1 + s2)) d1) := by
  simp only [Portfolio.buy, h0] at h1
  split at h1
  · exact absurd h1 (by simp)
  · injection h1 with h1'
    subst h1'
    simp only [Portfolio.buy, alookup_aset_self] at h2
    split at h2
    · exact absurd h2 (by simp)
    · split at h2
      · exact absurd h2 (by simp)
      · injection h2 with h2'
        subst h2'
        refine ⟨alookup_aset_self _ _ _, ?_⟩
        intro s p3 d3 pf3 h3 hneq
        simp only [Portfolio.sell, alookup_aset_self] at h3
        split at h3
        · exact absurd h3 (by simp)
        · split at h3
          · exact absurd h3 (by simp)
          · injection h3 with h3'
            subst h3'
            exact alookup_aset_self _ _ _

/-- Witness for C1 at a concrete input: $1000 cash, buy 2 shares at $10
then 2 at $20 (avg cost 15, entry date preserved), then sell 1 share. -/
theorem buy_buy_avg_cost_sell_preserves_witness :
    alookup (Portfolio.mk 970 [("A", Position.mk "A" 3 15 ⟨1⟩)]).positions "A" =
      some (Position.mk "A" (2 + 2 - 1) ((2 * 10 + 2 * 20) / (2 + 2)) ⟨1⟩) :=
  (buy_buy_avg_cost_sell_preserves ⟨1000, []⟩ "A" 2 10 2 20 ⟨1⟩ ⟨2⟩
      ⟨980, [("A", Position.mk "A" 2 10 ⟨1⟩)]⟩
      ⟨940, [("A", Position.mk "A" 4 15 ⟨1⟩)]⟩
      rfl (by norm_num [Portfolio.buy, alookup, aset])
      (by norm_num [Portfolio.buy, alookup, aset])).2
    1 30 ⟨3⟩ ⟨970, [("A", Position.mk "A" 3 15 ⟨1⟩)]⟩
    (by norm_num [Portfolio.sell, alookup, aset, aerase])
    (by norm_num)

/-- C2: on a ledger satisfying the data-model invariant, a buy with
positive shares and price fails with `InsufficientCash` exactly when
`cost = shares * price` strictly exceeds the available cash (so a buy
whose cost exactly equals cash succeeds, leaving cash 0); no other
failure is possible; and a successful buy decreases cash by exactly the
cost.  In the embedding a failing buy returns only the error, i.e. the
ledger value is unchanged; in the code the insufficient-cash check
precedes every mutation. -/
theorem buy_insufficient_cash_iff (pf : Portfolio) (t : String)
    (shares price : ℚ) (d : Date)
    (hs : 0 < shares) (_hp : 0 < price) (hwf : LedgerInvariant pf) :
    (pf.buy t shares price d = .error .insufficientCash ↔ pf.cash < shares * price) ∧
    (∀ e, pf.buy t shares price d = .error e → e = .insufficientCash) ∧
    (∀ pf', pf.buy t shares price d = .ok pf' → pf'.cash = pf.cash - shares * price) ∧
    (shares * price = pf.cash →
      ∃ pf', pf.buy t shares price d = .ok pf' ∧ pf'.cash = 0) := by
  by_cases hc : shares * price > pf.cash
  · have hb : pf.buy t shares price d = .error .insufficientCash := by
      simp only [Portfolio.buy, if_pos hc]
    refine ⟨⟨fun _ => hc, fun _ => hb⟩, ?_, ?_, ?_⟩
    · intro e he
      rw [hb] at he
      injection he with h'
      exact h'.symm
    · intro pf' hok
      rw [hb] at hok
      exact absurd hok (by simp)
    · intro heq
      rw [heq] at hc
      exact absurd hc (lt_irrefl _)
  · have hb : ∃ ps, pf.buy t shares price d =
        .ok { cash := pf.cash - shares * price, positions := ps } := by
      cases halo : alookup pf.positions t with
      | none =>
          refine ⟨aset pf.positions t (Position.mk t shares price d), ?_⟩
          simp only [Portfolio.buy, if_neg hc, halo]
      | some existing =>
          have hex : 0 < existing.shares :=
            hwf.2.1 (t, existing) (alookup_some_mem _ _ _ halo)
          have hnz : ¬ (existing.shares + shares = 0) := (add_pos hex hs).ne'
          refine ⟨aset pf.positions t (Position.mk t (existing.shares + shares)
            ((existing.shares * existing.entry_price + shares * price) /
              (existing.shares + shares)) existing.entry_date), ?_⟩
          simp only [Portfolio.buy, if_neg hc, halo, if_neg hnz]
    obtain ⟨ps, hb⟩ := hb
    refine ⟨⟨fun he => ?_, fun hlt => absurd hlt hc⟩, ?_, ?_, ?_⟩
    · rw [hb] at he
      exact absurd he (by simp)
    · intro e he
      rw [hb] at he
      exact absurd he (by simp)
    · intro pf' hok
      rw [hb] at hok
      injection hok with h'
      rw [← h']
    · intro heq
      exact ⟨_, hb, by rw [heq, sub_self]⟩

/-- Witness for C2 at the spec's concrete example: $100 cash, buying 10
shares at $50 (cost $500) fails with `InsufficientCash`, and that is the
only failure mode; cost $500 strictly exceeds $100. -/
theorem buy_insufficient_cash_iff_witness :
    ((Portfolio.mk 100 []).buy "B" 10 50 ⟨1⟩ = .error .insufficientCash ↔
      (Portfolio.mk 100 []).cash < 10 * 50) ∧
    (∀ e, (Portfolio.mk 100 []).buy "B" 10 50 ⟨1⟩ = .error e →
      e = .insufficientCash) ∧
    (∀ pf', (Portfolio.mk 100 []).buy "B" 10 50 ⟨1⟩ = .ok pf' →
      pf'.cash = (Portfolio.mk 100 []).cash - 10 * 50) ∧
    ((10 : ℚ) * 50 = (Portfolio.mk 100 []).cash →
      ∃ pf', (Portfolio.mk 100 []).buy "B" 10 50 ⟨1⟩ = .ok pf' ∧ pf'.cash = 0) :=
  buy_insufficient_cash_iff (Portfolio.mk 100 []) "B" 10 50 ⟨1⟩
    (by norm_num) (by norm_num) (by norm_num [LedgerInvariant])

/-- Helper: a successful buy with positive shares and price preserves the
ledger invariant. -/
theorem buy_preserves_invariant (pf pf' : Portfolio) (t : String) (s p : ℚ)
    (d : Date) (hs : 0 < s) (_hp : 0 < p) (hwf : LedgerInvariant pf)
    (h : pf.buy t s p d = .ok pf') : LedgerInvariant pf' := by
  obtain ⟨hcash, hpos, hnd⟩ := hwf
  simp only [Portfolio.buy] at h
  split at h
  · exact absurd h (by simp)
  · rename_i hc
    split at h
    · rename_i existing heq
      split at h
      · exact absurd h (by simp)
      · injection h with h'
        subst h'
        have hex : 0 < existing.shares :=
          hpos (t, existing) (alookup_some_mem _ _ _ heq)
        refine ⟨by simpa using sub_nonneg.mpr (not_lt.mp hc), ?_, ?_⟩
        · intro q hq
          rcases mem_aset_elim _ _ _ _ hq with h' | h'
          · rw [h']
            exact add_pos hex hs
          · exact hpos q h'
        · exact nodup_keys_aset _ _ _ hnd
    · injection h with h'
      subst h'
      refine ⟨by simpa using sub_nonneg.mpr (not_lt.mp hc), ?_, ?_⟩
      · intro q hq
        rcases mem_aset_elim _ _ _ _ hq with h' | h'
        · rw [h']
          exact hs
        · exact hpos q h'
      · exact nodup_keys_aset _ _ _ hnd

/-- Helper: a successful sell with positive shares and price preserves the
ledger invariant. -/
theorem sell_preserves_invariant (pf pf' : Portfolio) (t : String) (s p : ℚ)
    (d : Date) (hs : 0 < s) (hp : 0 < p) (hwf : LedgerInvariant pf)
    (h : pf.sell t s p d = .ok pf') : LedgerInvariant pf' := by
  obtain ⟨hcash, hpos, hnd⟩ := hwf
  have hproceeds : 0 ≤ pf.cash + s * p :=
    add_nonneg hcash (le_of_lt (mul_pos hs hp))
  simp only [Portfolio.sell] at h
  split at h
  · exact absurd h (by simp)
  · split at h
    · exact absurd h (by simp)
    · rename_i pos heq
      split at h
      · exact absurd h (by simp)
      · rename_i hle
        split at h
        · injection h with h'
          subst h'
          exact ⟨hproceeds,
            fun q hq => hpos q (mem_aerase _ _ _ hq),
            nodup_keys_aerase _ _ hnd⟩
        · rename_i hneqfull
          injection h with h'
          subst h'
          refine ⟨hproceeds, ?_, nodup_keys_aset _ _ _ hnd⟩
          intro q hq
          rcases mem_aset_elim _ _ _ _ hq with h' | h'
          · rw [h']
            exact sub_pos.mpr (lt_of_le_of_ne (not_lt.mp hle) hneqfull)
          · exact hpos q h'

/-- Helper: the ledger invariant is preserved by any successful sequence
of positive-share positive-price operations. -/
theorem ledger_invariant_ops (ops : List Op) : ∀ pf pf' : Portfolio,
    LedgerInvariant pf → (∀ op ∈ ops, op.validOrder) →
    applyOps pf ops = .ok pf' → LedgerInvariant pf' := by
  induction ops with
  | nil =>
      intro pf pf' hwf _ h
      simp only [applyOps] at h
      injection h with h'
      rwa [h'] at hwf
  | cons op rest ih =>
      intro pf pf' hwf hops h
      simp only [applyOps] at h
      split at h
      · exact absurd h (by simp)
      · rename_i pm heq
        have hvalid := hops op (List.mem_cons_self op rest)
        have hwm : LedgerInvariant pm := by
          cases op with
          | buy t s p d =>
              exact buy_preserves_invariant pf pm t s p d hvalid.1 hvalid.2 hwf heq
          | sell t s p d =>
              exact sell_preserves_invariant pf pm t s p d hvalid.1 hvalid.2 hwf heq
        exact ih pm pf' hwm (fun o ho => hops o (List.mem_cons_of_mem op ho)) h

/-- C3 counterexample: the claim constrains prices but not share counts;
starting from $100 and no positions, the single operation buy("A", 0
shares, price $10) succeeds (cost 0 passes the cash check, since buy does
not validate the share count) and stores a position with 0 shares,
violating the invariant "no stored position has shares ≤ 0". -/
theorem ledger_invariant_violated_by_zero_share_buy :
    applyOps (Portfolio.mk 100 []) [Op.buy "A" 0 10 ⟨1⟩] =
      .ok (Portfolio.mk 100 [("A", Position.mk "A" 0 10 ⟨1⟩)]) ∧
    ¬ LedgerInvariant (Portfolio.mk 100 [("A", Position.mk "A" 0 10 ⟨1⟩)]) := by
  constructor
  · norm_num [applyOps, applyOp, Portfolio.buy, alookup, aset]
  · intro hwf
    have h0 := hwf.2.1 ("A", Position.mk "A" 0 10 ⟨1⟩) (by simp)
    norm_num at h0

/-- C3 (amended): for every ledger created with non-negative initial cash
and every sequence of buy and sell operations with positive shares and
positive prices (failed operations propagating their error and changing
nothing), any successfully reached state satisfies the ledger invariant:
cash ≥ 0, no stored position has shares ≤ 0, and each ticker appears at
most once.  Every successful prefix of a sequence is itself such a
sequence, so the invariant holds after each operation. -/
theorem ledger_invariant_after_ops (c : ℚ) (ops : List Op) (pf' : Portfolio)
    (hc : 0 ≤ c) (hops : ∀ op ∈ ops, op.validOrder)
    (h : applyOps { cash := c, positions := [] } ops = .ok pf') :
    LedgerInvariant pf' :=
  ledger_invariant_ops ops { cash := c, positions := [] } pf'
    ⟨hc, by simp, by simp⟩ hops h

/-- Witness for the C3 amended theorem at a concrete input: buy 5 shares
at $10 from $100, then sell 2 at $20; the resulting ledger satisfies the
invariant. -/
theorem ledger_invariant_after_ops_witness :
    LedgerInvariant (Portfolio.mk 90 [("A", Position.mk "A" 3 10 ⟨1⟩)]) :=
  ledger_invariant_after_ops 100 [Op.buy "A" 5 10 ⟨1⟩, Op.sell "A" 2 20 ⟨2⟩]
    (Portfolio.mk 90 [("A", Position.mk "A" 3 10 ⟨1⟩)]) (by norm_num)
    (by
      intro op hop
      simp only [List.mem_cons, List.mem_singleton] at hop
      rcases hop with h | h | h
      · rw [h]; exact ⟨by norm_num, by norm_num⟩
      · rw [h]; exact ⟨by norm_num, by norm_num⟩
      · exact absurd h (by simp))
    (by norm_num [applyOps, applyOp, Portfolio.buy, Portfolio.sell, alookup, aset])

/-- C8: whenever `calculate_trades` succeeds, every Sell trade appears
before every Buy trade in the returned sequence: if position `i` holds a
trade with side "sell" and position `j` holds a trade with side "buy",
then `i < j`. -/
theorem calculate_trades_sell_before_buy (pf : Portfolio)
    (target_weights prices : List (String × ℚ)) (d : Date)
    (trades : List Trade) (i j : ℕ) (ti tj : Trade)
    (h : calculate_trades pf target_weights prices d = .ok trades)
    (hi : trades[i]? = some ti) (hj : trades[j]? = some tj)
    (hsell : ti.side = "sell") (hbuy : tj.side = "buy") : i < j := by
  simp only [calculate_trades] at h
  split at h
  · exact absurd h (by simp)
  · split at h
    · exact absurd h (by simp)
    · rename_i planned heq
      injection h with h'
      subst h'
      have hiS : i < (planned.filter (fun tr => tr.side = "sell")).length := by
        by_contra hge
        push_neg at hge
        rw [List.getElem?_append_right hge] at hi
        have hmem : ti ∈ planned.filter (fun tr => tr.side = "buy") := by
          rcases List.getElem?_eq_some.mp hi with ⟨hlt, he⟩
          exact he ▸ List.getElem_mem hlt
        have hside := of_decide_eq_true (List.mem_filter.mp hmem).2
        rw [hsell] at hside
        exact absurd hside (by decide)
      have hjB : (planned.filter (fun tr => tr.side = "sell")).length ≤ j := by
        by_contra hlt
        push_neg at hlt
        rw [List.getElem?_append_left hlt] at hj
        have hmem : tj ∈ planned.filter (fun tr => tr.side = "sell") := by
          rcases List.getElem?_eq_some.mp hj with ⟨hlt', he⟩
          exact he ▸ List.getElem_mem hlt'
        have hside := of_decide_eq_true (List.mem_filter.mp hmem).2
        rw [hbuy] at hside
        exact absurd hside (by decide)
      exact lt_of_lt_of_le hiS hjB

/-- Witness for C8 at a concrete input: $5000 cash plus 50 AAPL at $100,
target 100% MSFT; the planner returns the AAPL sell at position 0 and the
MSFT buy at position 1, so 0 < 1. -/
theorem calculate_trades_sell_before_buy_witness : (0 : ℕ) < 1 :=
  calculate_trades_sell_before_buy
    (Portfolio.mk 5000 [("AAPL", Position.mk "AAPL" 50 100 ⟨1⟩)])
    [("MSFT", 1)] [("AAPL", 100), ("MSFT", 50)] ⟨2⟩
    [Trade.mk ⟨2⟩ "AAPL" 50 100 "sell", Trade.mk ⟨2⟩ "MSFT" 200 50 "buy"]
    0 1 (Trade.mk ⟨2⟩ "AAPL" 50 100 "sell") (Trade.mk ⟨2⟩ "MSFT" 200 50 "buy")
    (by norm_num +decide [calculate_trades, planTickers, planTicker, tradeUniverse,
      Portfolio.get_total_value, alookup, deltaEps, List.filter])
    rfl rfl rfl rfl

/-- Helper: the simulation calendar is empty exactly on an inverted range,
else spans the closed ordinal interval. -/
theorem dateRange_length (s e : Date) :
    (dateRange s e).length =
      (if e.ordinal < s.ordinal then 0 else e.ordinal - s.ordinal + 1) := by
  unfold dateRange
  split
  · rfl
  · rw [List.length_map, List.length_range]

/-- Helper: the i-th simulation date has ordinal `start + i`. -/
theorem dateRange_getElem (s e : Date) (i : ℕ) (x : Date)
    (h : (dateRange s e)[i]? = some x) : x.ordinal = s.ordinal + i := by
  unfold dateRange at h
  split at h
  · rcases List.getElem?_eq_some.mp h with ⟨hlt, _⟩
    simp at hlt
  · rw [List.getElem?_map] at h
    cases hr : (List.range (e.ordinal - s.ordinal + 1))[i]? with
    | none => rw [hr] at h; simp at h
    | some k =>
        rw [hr] at h
        injection h with h'
        rcases List.getElem?_eq_some.mp hr with ⟨hlt, hget⟩
        rw [List.getElem_range] at hget
        rw [← h']
        simp [hget]

/-- Helper: the run loop emits exactly one equity record per processed
date, in order, and the records are exactly the per-day valuations of the
ledger-state sequence the loop threads (`ledgerStates`). -/
theorem runLoop_spec (target_weights : List (String × ℚ)) (frequency : String)
    (rows : List (Date × String × ℚ)) (dates : List Date) :
    ∀ pf last eqs trs,
      runLoop target_weights frequency rows dates pf last = .ok (eqs, trs) →
      eqs.map EquityRecord.date = dates ∧
      ∃ pfs, ledgerStates target_weights frequency rows dates pf last = .ok pfs ∧
        eqs = List.zipWith
          (fun p d => EquityRecord.mk d (p.get_total_value (some (pricesFor rows d)))
            p.cash (((p.get_holdings_value (pricesFor rows d)).map Prod.snd).sum))
          pfs dates := by
  induction dates with
  | nil =>
      intro pf last eqs trs h
      simp only [runLoop] at h
      injection h with h'
      injection h' with he ht
      subst he
      exact ⟨rfl, [], rfl, rfl⟩
  | cons d rest ih =>
      intro pf last eqs trs h
      simp only [runLoop] at h
      split at h
      · exact absurd h (by simp)
      · rename_i hreb
        split at h
        · exact absurd h (by simp)
        · rename_i eqs' trs' heq
          injection h with h'
          injection h' with he ht
          subst he
          obtain ⟨hmap, pfs', hstates', heqs'⟩ := ih _ _ _ _ heq
          refine ⟨by simp [mkRecord, hmap], pf :: pfs', ?_, ?_⟩
          · simp only [ledgerStates, hreb, hstates']
          · rw [List.zipWith_cons_cons, ← heqs']
            rfl
      · rename_i hreb
        split at h
        · exact absurd h (by simp)
        · rename_i trades hcalc
          split at h
          · exact absurd h (by simp)
          · rename_i pf' recs hexec
            split at h
            · exact absurd h (by simp)
            · rename_i eqs' trs' heq
              injection h with h'
              injection h' with he ht
              subst he
              obtain ⟨hmap, pfs', hstates', heqs'⟩ := ih _ _ _ _ heq
              refine ⟨by simp [mkRecord, hmap], pf' :: pfs', ?_, ?_⟩
              · simp only [ledgerStates, hreb, hcalc, hexec, hstates']
              · rw [List.zipWith_cons_cons, ← heqs']
                rfl

/-- C9: a run that completes without error yields one equity record per
calendar date of the closed range [start_date, end_date] in ascending
order (the i-th record's date has ordinal `start + i`, and the length is
the size of the closed range, 0 when the range is inverted), including
dates with no price rows; and the equity curve is exactly, record by
record, the valuation of the run's own threaded ledger state on each
date: `{date, portfolio_value = get_total_value(day prices), cash = the
ledger's cash, positions_value = sum of get_holdings_value(day prices)}`,
where the ledger-state sequence is `ledgerStates`, the run's rebalancing
recurrence. -/
theorem backtester_run_equity_curve (rows : List (Date × String × ℚ))
    (target_weights : List (String × ℚ)) (config : BacktestConfig)
    (res : BacktestResult)
    (h : Backtester.run rows target_weights config = .ok res) :
    res.equity_curve.map EquityRecord.date =
      dateRange config.start_date config.end_date ∧
    (∀ i r, res.equity_curve[i]? = some r →
      r.date.ordinal = config.start_date.ordinal + i) ∧
    res.equity_curve.length =
      (if config.end_date.ordinal < config.start_date.ordinal then 0
       else config.end_date.ordinal - config.start_date.ordinal + 1) ∧
    Except.map
      (fun pfs => List.zipWith
        (fun p d => EquityRecord.mk d (p.get_total_value (some (pricesFor rows d)))
          p.cash (((p.get_holdings_value (pricesFor rows d)).map Prod.snd).sum))
        pfs (dateRange config.start_date config.end_date))
      (ledgerStates target_weights config.rebalance_frequency rows
        (dateRange config.start_date config.end_date)
        { cash := config.initial_cash, positions := [] } none)
      = .ok res.equity_curve := by
  simp only [Backtester.run] at h
  split at h
  · exact absurd h (by simp)
  · rename_i eqs trs heq
    injection h with h'
    subst h'
    obtain ⟨hmap, pfs, hstates, heqs⟩ :=
      runLoop_spec target_weights config.rebalance_frequency rows _ _ _ _ _ heq
    refine ⟨hmap, ?_, ?_, ?_⟩
    · intro i r hir
      apply dateRange_getElem config.start_date config.end_date i
      rw [← hmap, List.getElem?_map, hir]
      rfl
    · rw [← dateRange_length config.start_date config.end_date, ← hmap,
        List.length_map]
    · rw [hstates]
      simp only [Except.map]
      exact congrArg Except.ok heqs.symm

/-- Witness for C9 at a concrete input: a one-day run (start = end =
ordinal 10) with no price rows, no targets, frequency "never" and $100
cash succeeds with exactly one equity record, whose count matches the
closed range size. -/
theorem backtester_run_equity_curve_witness :
    (BacktestResult.mk [EquityRecord.mk ⟨10⟩ 100 100 0] []).equity_curve.length =
      (if (10 : ℕ) < 10 then 0 else 10 - 10 + 1) :=
  (backtester_run_equity_curve [] [] (BacktestConfig.mk ⟨10⟩ ⟨10⟩ 100 "never" 0)
    (BacktestResult.mk [EquityRecord.mk ⟨10⟩ 100 100 0] [])
    (by norm_num +decide [Backtester.run, runLoop, dateRange, should_rebalance,
      calculate_trades, planTickers, tradeUniverse, Portfolio.get_total_value,
      execTrades, mkRecord, pricesFor, Portfolio.get_holdings_value,
      List.range_succ])).2.2.1
